import Mathlib

/-!
Verification of the TaskForge in-process scheduler (`src/taskforge.py`).

The embedding is shallow:

* Python strings that are parsed character by character (duration tokens)
  are `List Char`; names that are only compared (task names, group names,
  record field names) are `String`.
* Python floats are modelled as rationals; every numeric value appearing
  in the development is exactly representable, so no rounding is lost.
* The mutable scheduler object (`self.tasks`, `self.groups`) is the
  explicit state `Forge`, and every method is a function
  `... → Forge → Option Err × Forge` returning the raised exception (if
  any) together with the state after the call, including states left by
  mutations committed before an exception was raised.
* The per-task worker loop runs concurrently with registry mutations; it
  is modelled as a trace function over the sequence of record snapshots
  the loop reads (one per lock acquisition), with a fuel argument for the
  unbounded `while`; `none` means the fuel ran out before the loop ended.
-/

/-- Exceptions raised by the scheduler, by raise site.  `floatConv` is the
`ValueError` Python's `float()` raises on an unparsable magnitude;
`invalidFormat` and `negativeInterval` are the two `ValueError`s raised by
`_parse_time` itself. -/
inductive Err
  | floatConv
  | invalidFormat
  | negativeInterval
  | nameExists (t : String)
  | groupNotFound (g : String)
  | taskNotFound (t : String)
  | propNotFound (p t : String)
  | listRemoveError (t : String)
  | keyError (k : String)
  | attributeError
  | badArgs (t : String)
  deriving DecidableEq, Repr

/-- The spec's "format error" taxonomy class: a duration token with no
recognized unit suffix, or one whose magnitude `float()` cannot parse. -/
def Err.isFormatError : Err → Prop
  | .floatConv => True
  | .invalidFormat => True
  | _ => False

/-- Value of a run of decimal digit characters. -/
def digitsToNat (ds : List Char) : ℕ :=
  ds.foldl (fun a c => a * 10 + (c.toNat - '0'.toNat)) 0

/-- Model of Python `float()` on the decimal literals the scheduler's
duration grammar uses: optional sign, then digits with an optional single
decimal point (`"5"`, `"-5"`, `"5."`, `".5"`).  Exotic float forms
(exponents, `inf`, `nan`, underscores, surrounding whitespace) is outside
the duration grammar and not modelled. -/
def parseFloat (s : List Char) : Option ℚ :=
  let sr : ℚ × List Char :=
    match s with
    | '-' :: r => (-1, r)
    | '+' :: r => (1, r)
    | r => (1, r)
  let ip := sr.2.takeWhile Char.isDigit
  let rest := sr.2.dropWhile Char.isDigit
  match rest with
  | [] => if ip.isEmpty then none else some (sr.1 * (digitsToNat ip : ℚ))
  | '.' :: fp =>
    if fp.all Char.isDigit && !(ip.isEmpty && fp.isEmpty) then
      some (sr.1 * ((digitsToNat ip : ℚ) + (digitsToNat fp : ℚ) / (10 : ℚ) ^ fp.length))
    else none
  | _ => none

/-- Python `str.endswith`. -/
def endswith (l suf : List Char) : Bool := decide (suf <:+ l)

/-- Python slicing `s[:-n]`. -/
def dropRight (l : List Char) (n : ℕ) : List Char := (l.reverse.drop n).reverse

/-- `TaskForge._parse_time`: convert a duration token to seconds.  The
suffix cascade and the final negativity check follow the source line for
line; a `float()` failure propagates as `Err.floatConv`. -/
def parse_time (interval : List Char) : Except Err ℚ :=
  let valE : Except Err ℚ :=
    if endswith interval ['s'] && !endswith interval ['m', 's'] then
      match parseFloat (dropRight interval 1) with
      | some q => .ok q
      | none => .error .floatConv
    else if endswith interval ['m'] then
      match parseFloat (dropRight interval 1) with
      | some q => .ok (q * 60)
      | none => .error .floatConv
    else if endswith interval ['h'] then
      match parseFloat (dropRight interval 1) with
      | some q => .ok (q * 3600)
      | none => .error .floatConv
    else if endswith interval ['d'] then
      match parseFloat (dropRight interval 1) with
      | some q => .ok (q * 86400)
      | none => .error .floatConv
    else if endswith interval ['m', 's'] then
      match parseFloat (dropRight interval 2) with
      | some q => .ok (q / 1000)
      | none => .error .floatConv
    else .error .invalidFormat
  match valE with
  | .ok v => if v < 0 then .error .negativeInterval else .ok v
  | .error e => .error e

/-- The guarded parse `self._parse_time(x) if x else 0` used by `every`
and `after` for their optional duration arguments: Python `None` and the
empty string are falsy and yield `0` without parsing. -/
def parse_optTime (o : Option (List Char)) : Except Err ℚ :=
  match o with
  | none => .ok 0
  | some s => if s = [] then .ok 0 else parse_time s

/-- Which magnitude substring and unit factor the suffix cascade of
`_parse_time` selects for a token (`none` when no suffix matches).  Used
to state the error contract of the parser. -/
def tokSplit (t : List Char) : Option (List Char × ℚ) :=
  if endswith t ['s'] && !endswith t ['m', 's'] then some (dropRight t 1, 1)
  else if endswith t ['m'] then some (dropRight t 1, 60)
  else if endswith t ['h'] then some (dropRight t 1, 3600)
  else if endswith t ['d'] then some (dropRight t 1, 86400)
  else if endswith t ['m', 's'] then some (dropRight t 2, 1 / 1000)
  else none

/-- Python values stored in a task record.  The wrapper callable is kept
as the name of the function it wraps (the scheduler never inspects it). -/
inductive Value
  | none
  | str (s : String)
  | num (q : ℚ)
  | int (n : ℤ)
  | bool (b : Bool)
  | fn (name : String)
  deriving DecidableEq, Repr

/-- Python truthiness for the `Value`s above. -/
def Value.truthy : Value → Bool
  | .none => false
  | .str s => !(s = "")
  | .num q => !(q = 0)
  | .int n => !(n = 0)
  | .bool b => b
  | .fn _ => true

/-- A task record: a Python dict from field name to value (insertion
ordered, unique keys in every reachable state). -/
abbrev TaskRec := List (String × Value)

/-- First-occurrence association-list lookup (Python dict read). -/
def alookup {α : Type} (k : String) : List (String × α) → Option α
  | [] => Option.none
  | (k', v) :: rest => if k' = k then some v else alookup k rest

/-- Python dict assignment `d[k] = v`: overwrite in place if the key
exists, otherwise append (insertion order preserved). -/
def setAssoc {α : Type} (l : List (String × α)) (k : String) (v : α) : List (String × α) :=
  match l with
  | [] => [(k, v)]
  | (k', v') :: rest => if k' = k then (k, v) :: rest else (k', v') :: setAssoc rest k v

/-- Python `del d[k]`. -/
def removeKey {α : Type} (k : String) : List (String × α) → List (String × α)
  | [] => []
  | (k', v) :: rest => if k' = k then rest else (k', v) :: removeKey k rest

/-- Dict read of a record field. -/
def getField (r : TaskRec) (k : String) : Option Value := alookup k r

/-- Dict write of a record field. -/
def setField (r : TaskRec) (k : String) (v : Value) : TaskRec := setAssoc r k v

/-- The scheduler state: `self.tasks` and `self.groups`.  Group-index
keys are the group names, which the API types as strings. -/
structure Forge where
  tasks : List (String × TaskRec)
  groups : List (String × List String)
  deriving DecidableEq, Repr

/-- The empty scheduler, as built by `TaskForge.__init__`. -/
def emptyForge : Forge := ⟨[], []⟩

/-- `if group:` for the `group: str = None` keyword argument. -/
def groupTruthy : Option String → Bool
  | Option.none => false
  | some g => !(g = "")

/-- `self.groups[group].append(task_name)` with creation of a fresh
single-member list when the group key is new. -/
def addToGroup (groups : List (String × List String)) (g task : String) :
    List (String × List String) :=
  match alookup g groups with
  | some members => setAssoc groups g (members ++ [task])
  | Option.none => groups ++ [(g, [task])]

/-- The record inserted by `every`'s decorator. -/
def periodicRec (funcName : String) (i d j : ℚ) (limit : Option ℤ) (log : Bool)
    (group : Option String) : TaskRec :=
  [("function", Value.fn funcName), ("state", Value.str "active"),
   ("interval", Value.num i), ("delay", Value.num d), ("jitter", Value.num j),
   ("limit", match limit with | some n => Value.int n | Option.none => Value.none),
   ("log", Value.bool log),
   ("group", match group with | some g => Value.str g | Option.none => Value.none)]

/-- `TaskForge.every(...)` applied to a function: parse the three time
arguments (interval, then jitter, then delay, in source order), reject a
duplicate task name, insert the record, and index the group when the
`group` argument is truthy. -/
def every (interval : List Char) (delay jitter : Option (List Char)) (limit : Option ℤ)
    (log : Bool) (group : Option String) (funcName : String) (s : Forge) :
    Option Err × Forge :=
  match parse_time interval with
  | .error e => (some e, s)
  | .ok i =>
    match parse_optTime jitter with
    | .error e => (some e, s)
    | .ok j =>
      match parse_optTime delay with
      | .error e => (some e, s)
      | .ok d =>
        if (alookup funcName s.tasks).isSome then (some (.nameExists funcName), s)
        else
          ⟨Option.none,
           s.tasks ++ [(funcName, periodicRec funcName i d j limit log group)],
           if groupTruthy group then
             addToGroup s.groups (group.getD "") funcName
           else s.groups⟩

/-- The record inserted by `after`'s decorator: function, state, delay,
jitter and log — no `interval`, `limit` or `group` key. -/
def oneShotRec (funcName : String) (d j : ℚ) (log : Bool) : TaskRec :=
  [("function", Value.fn funcName), ("state", Value.str "active"),
   ("delay", Value.num d), ("jitter", Value.num j), ("log", Value.bool log)]

/-- `TaskForge.after(...)` applied to a function: parse jitter then delay
(each treated as zero when falsy) and assign the one-shot record under
the function's name, overwriting any existing record without a duplicate
check. -/
def after (delay : List Char) (jitter : Option (List Char)) (log : Bool)
    (funcName : String) (s : Forge) : Option Err × Forge :=
  match parse_optTime jitter with
  | .error e => (some e, s)
  | .ok j =>
    match (if delay = [] then Except.ok 0 else parse_time delay) with
    | .error e => (some e, s)
    | .ok d =>
      (Option.none, ⟨setAssoc s.tasks funcName (oneShotRec funcName d j log), s.groups⟩)

/-- `TaskForge._set_state`: overwrite the task's `state` field, or raise
not-found when the task name is absent. -/
def set_state (funcName : String) (st : String) (s : Forge) : Option Err × Forge :=
  match alookup funcName s.tasks with
  | some r =>
    (Option.none, ⟨setAssoc s.tasks funcName (setField r "state" (Value.str st)), s.groups⟩)
  | Option.none => (some (.taskNotFound funcName), s)

/-- `TaskForge.pause`. -/
def pause (funcName : String) (s : Forge) : Option Err × Forge :=
  set_state funcName "paused" s

/-- `TaskForge.resume`. -/
def resume (funcName : String) (s : Forge) : Option Err × Forge :=
  set_state funcName "active" s

/-- `TaskForge.stop`. -/
def stop (funcName : String) (s : Forge) : Option Err × Forge :=
  set_state funcName "stopped" s

/-- One iteration of `edit`'s update loop, for one key/value pair:
reject an unknown field; juggle the group index when the key is
`"group"` (Python would index `self.groups` with whatever truthy value
is supplied — group keys are typed as strings here, so a truthy
non-string old or new group value is modelled as the key-absence
error); parse timing fields through `_parse_time` before storing;
store every other value raw. -/
def editStep (funcName prop : String) (v : Value) (s : Forge) : Option Err × Forge :=
  match alookup funcName s.tasks with
  | Option.none => (some (.keyError funcName), s)
  | some r =>
    if (getField r prop).isNone then (some (.propNotFound prop funcName), s)
    else
      let groupsRes : Except Err (List (String × List String)) :=
        if prop = "group" then
          let afterOld : Except Err (List (String × List String)) :=
            match getField r "group" with
            | some ogv =>
              if ogv.truthy then
                match ogv with
                | Value.str og =>
                  match alookup og s.groups with
                  | some members =>
                    if funcName ∈ members then
                      let m' := members.erase funcName
                      .ok (if m' = [] then removeKey og s.groups else setAssoc s.groups og m')
                    else .error (.listRemoveError funcName)
                  | Option.none => .error (.keyError og)
                | _ => .error (.keyError funcName)
              else .ok s.groups
            | Option.none => .ok s.groups
          match afterOld with
          | .error e => .error e
          | .ok gs₁ =>
            if v.truthy then
              match v with
              | Value.str vg => .ok (addToGroup gs₁ vg funcName)
              | _ => .error (.keyError funcName)
            else .ok gs₁
        else .ok s.groups
      match groupsRes with
      | .error e => (some e, s)
      | .ok gs' =>
        if prop = "delay" ∨ prop = "interval" ∨ prop = "jitter" then
          match v with
          | Value.str tok =>
            match parse_time tok.data with
            | .ok q => (Option.none, ⟨setAssoc s.tasks funcName (setField r prop (Value.num q)), gs'⟩)
            | .error e => (some e, s)
          | _ => (some .attributeError, s)
        else (Option.none, ⟨setAssoc s.tasks funcName (setField r prop v), gs'⟩)

/-- `edit`'s fold over the updates dict: stop at the first raised
exception, keeping the mutations already committed by earlier keys. -/
def editLoop (funcName : String) : List (String × Value) → Forge → Option Err × Forge
  | [], s => (Option.none, s)
  | (p, v) :: rest, s =>
    match editStep funcName p v s with
    | (some e, s') => (some e, s')
    | (Option.none, s') => editLoop funcName rest s'

/-- `TaskForge.edit`: not-found when the task name is absent, otherwise
the update loop. -/
def edit (funcName : String) (updates : List (String × Value)) (s : Forge) :
    Option Err × Forge :=
  if (alookup funcName s.tasks).isSome then editLoop funcName updates s
  else (some (.taskNotFound funcName), s)

/-- A member of the `targets` list passed to `run`: a string, or a
callable whose `__name__` is the given task name.  (A non-callable
non-string target would be appended verbatim; no claim exercises that.) -/
inductive Target
  | str (s : String)
  | func (name : String)
  deriving DecidableEq, Repr

/-- `TaskForge._expand_targets`: a string target is looked up in the
group index only (raising not-found when it is not a group key, whatever
the task registry contains); a callable target contributes its
`__name__`.  No deduplication is performed. -/
def expand_targets (groups : List (String × List String)) :
    List Target → Except Err (List String)
  | [] => .ok []
  | Target.str t :: rest =>
    match alookup t groups with
    | some members =>
      match expand_targets groups rest with
      | .ok out => .ok (members ++ out)
      | .error e => .error e
    | Option.none => .error (.groupNotFound t)
  | Target.func n :: rest =>
    match expand_targets groups rest with
    | .ok out => .ok (n :: out)
    | .error e => .error e

/-- What a fully successful expansion produces, target by target. -/
def expandTargetsSpec (groups : List (String × List String)) (ts : List Target) :
    List String :=
  ts.flatMap (fun t =>
    match t with
    | Target.str g => (alookup g groups).getD []
    | Target.func n => [n])

/-- The target-selection step of `TaskForge.run`: a falsy `targets`
argument (absent or the empty list) selects every registered task in
insertion order, otherwise the expansion of the given list. -/
def run_targets (s : Forge) (targets : Option (List Target)) : Except Err (List String) :=
  match targets with
  | some ts => if ts = [] then .ok (s.tasks.map Prod.fst) else expand_targets s.groups ts
  | Option.none => .ok (s.tasks.map Prod.fst)

/-- Observable timed events of a worker: a call of `time.sleep`, a call
of the wrapped function, and the propagation of the wrapping
`RuntimeError` out of the worker. -/
inductive Event
  | sleepE (d : ℚ)
  | callE
  | raiseE
  deriving DecidableEq, Repr

/-- The fields of a periodic task's record as its worker loop reads
them.  `PropsView i` for successive `i` are the snapshots returned by
the loop's successive reads of `self.tasks[task_name]` (index 0 is the
unlocked read before the initial delay; the loop's locked reads follow),
which is how concurrent edits, pauses and stops become visible. -/
structure PropsView where
  state : String
  interval : ℚ
  delay : ℚ
  jitter : ℚ
  limit : Option ℤ
  log : Bool
  deriving DecidableEq, Repr

/-- The `while local_limit is None or local_limit > 0` guard. -/
def limGuard : Option ℤ → Bool
  | Option.none => true
  | some n => decide (0 < n)

/-- The inter-run sleep of one loop iteration: `interval + jitter_amount`
slept only when positive (`jit i` is the value `random.uniform` returned
at iteration `i`). -/
def intervalSleep (recs : ℕ → PropsView) (jit : ℕ → ℚ) (i : ℕ) : List Event :=
  if 0 < (recs i).interval + jit i then [Event.sleepE ((recs i).interval + jit i)] else []

/-- The body of the periodic wrapper's `while` loop, as the trace of
events it emits.  `lim` is the loop-local `local_limit` snapshot, `i`
indexes the snapshot the iteration reads, `ok i` tells whether the
wrapped function returned normally at iteration `i`, and `fuel` bounds
the number of iterations (`none` = fuel exhausted before the loop
ended).  A paused iteration sleeps the 100 ms poll and re-checks; a
stopped iteration exits; otherwise the function is called, an exception
is re-raised (ending the worker) exactly when the snapshot's `log` is
set, and the iteration ends with the inter-run sleep and the decrement
of `local_limit`. -/
def loopIter (recs : ℕ → PropsView) (jit : ℕ → ℚ) (ok : ℕ → Bool) :
    ℕ → Option ℤ → ℕ → Option (List Event)
  | fuel, lim, i =>
    if limGuard lim = false then some []
    else
      match fuel with
      | 0 => Option.none
      | fuel' + 1 =>
        if (recs i).state = "paused" then
          (loopIter recs jit ok fuel' lim (i + 1)).map (fun r => Event.sleepE (1 / 10) :: r)
        else if (recs i).state = "stopped" then some []
        else if ok i = false ∧ (recs i).log then some [Event.callE, Event.raiseE]
        else
          (loopIter recs jit ok fuel' (lim.map (· - 1)) (i + 1)).map
            (fun r => Event.callE :: (intervalSleep recs jit i ++ r))

/-- The whole periodic wrapper: the unlocked snapshot `recs 0` supplies
the initial `time.sleep(delay)` and the `local_limit` snapshot; the
loop's locked reads are `recs 1`, `recs 2`, …. -/
def periodicWrapper (fuel : ℕ) (recs : ℕ → PropsView) (jit : ℕ → ℚ) (ok : ℕ → Bool) :
    Option (List Event) :=
  (loopIter recs jit ok fuel (recs 0).limit 1).map (fun r => Event.sleepE (recs 0).delay :: r)

/-- The fields of a one-shot task's record as its wrapper reads them. -/
structure OneShotView where
  delay : ℚ
  jitter : ℚ
  log : Bool
  deriving DecidableEq, Repr

/-- The one-shot wrapper built by `after`: sleep `delay + jitter_amount`
when positive, call the function once, and re-raise a body exception
exactly when `log` is set. -/
def afterWrapper (p : OneShotView) (jit : ℚ) (ok : Bool) : List Event :=
  (if 0 < p.delay + jit then [Event.sleepE (p.delay + jit)] else []) ++
    Event.callE :: (if ok = false ∧ p.log then [Event.raiseE] else [])

/-- `t` is listed as a member of group `g` in a group index. -/
def memberOf (gs : List (String × List String)) (g t : String) : Prop :=
  ∃ members, alookup g gs = some members ∧ t ∈ members

/-- The group-agreement invariant of the claim: a task name appears in
`groups[g]` exactly when its record's `group` field is the string `g`. -/
def groupsAgree (s : Forge) : Prop :=
  ∀ g t : String,
    memberOf s.groups g t ↔
      (∃ r, alookup t s.tasks = some r ∧ getField r "group" = some (Value.str g))

/-- Structural facts about the group index that hold in every reachable
state and that the agreement invariant needs inductively: member lists
are duplicate-free, group keys are distinct, and no group is keyed by
the empty string (the scheduler's falsy "no group" marker). -/
def groupsWF (s : Forge) : Prop :=
  (∀ g members, alookup g s.groups = some members → members.Nodup) ∧
    (s.groups.map Prod.fst).Nodup ∧
    (∀ p ∈ s.groups, p.1 ≠ "")

/-- The full inductive invariant: agreement plus the structural facts. -/
def forgeWF (s : Forge) : Prop := groupsAgree s ∧ groupsWF s

/-- A sample already-registered record, used by concrete instances. -/
def sampleRec : TaskRec := [("function", Value.fn "t"), ("state", Value.str "active")]

/-- A scheduler holding one task `"t"` and no groups. -/
def forgeT : Forge := ⟨[("t", sampleRec)], []⟩

/-- A scheduler holding tasks `"t"` and `"a"` and one group
`"g" ↦ ["a"]` (task `"t"` is registered but belongs to no group). -/
def forgeG : Forge :=
  ⟨[("t", sampleRec),
    ("a", [("function", Value.fn "a"), ("state", Value.str "active"),
           ("group", Value.str "g")])],
   [("g", ["a"])]⟩

/-- The record snapshot used by the concrete executor instances: an
active task with a 5 second interval, no delay, no jitter, and a
remaining-execution limit of 3. -/
def cProps : PropsView := ⟨"active", 5, 0, 0, some 3, false⟩

/-- A live-record snapshot with logging enabled and no run limit. -/
def cPropsLog : PropsView := ⟨"active", 5, 0, 0, Option.none, true⟩

/-! ### Helper lemmas -/

theorem endswith_append_self (xs ys : List Char) : endswith (xs ++ ys) ys = true :=
  decide_eq_true (List.suffix_append xs ys)

theorem endswith_iff (l suf : List Char) : endswith l suf = true ↔ suf <:+ l := by
  simp [endswith]

theorem endswith_last_ne (xs : List Char) {c d : Char} (h : c ≠ d) :
    endswith (xs ++ [c]) [d] = false := by
  rw [Bool.eq_false_iff]
  intro hc
  obtain ⟨t, ht⟩ := (endswith_iff _ _).mp hc
  have h1 : (t ++ [d]).getLast? = some d := List.getLast?_concat _
  have h2 : (xs ++ [c]).getLast? = some c := List.getLast?_concat _
  rw [ht, h2] at h1
  exact h (Option.some.inj h1)

theorem endswith_concat_pair (xs : List Char) {b c : Char}
    (h : endswith (xs ++ [c]) [b, c] = true) : ∃ t, xs = t ++ [b] := by
  obtain ⟨t, ht⟩ := (endswith_iff _ _).mp h
  have : (t ++ [b]) ++ [c] = xs ++ [c] := by simpa using ht
  exact ⟨t, (List.append_cancel_right this).symm⟩

theorem dropRight_append_one (xs : List Char) (c : Char) : dropRight (xs ++ [c]) 1 = xs := by
  simp [dropRight, List.reverse_append]

theorem dropRight_append_two (xs : List Char) (b c : Char) :
    dropRight (xs ++ [b, c]) 2 = xs := by
  simp [dropRight, List.reverse_append]

/-- Characters that can occur in a magnitude accepted by `parseFloat`. -/
def numChar (c : Char) : Prop := c.isDigit = true ∨ c = '.' ∨ c = '+' ∨ c = '-'

theorem not_endswith_ms (m : List Char) (hm : ∀ c ∈ m, numChar c) :
    endswith (m ++ ['s']) ['m', 's'] = false := by
  rw [Bool.eq_false_iff]
  intro hc
  obtain ⟨t, ht⟩ := endswith_concat_pair m hc
  have : ('m' : Char) ∈ m := by rw [ht]; simp
  rcases hm 'm' this with h | h | h | h <;> revert h <;> decide

/-- `parse_time` factored through the suffix cascade: the selected
magnitude is parsed by `float()` and scaled by the selected unit factor,
then the negativity check applies. -/
theorem parse_time_eq (t : List Char) :
    parse_time t =
      match tokSplit t with
      | Option.none => .error Err.invalidFormat
      | some (m, f) =>
        match parseFloat m with
        | Option.none => .error Err.floatConv
        | some q => if q * f < 0 then .error Err.negativeInterval else .ok (q * f) := by
  simp only [parse_time, tokSplit]
  split_ifs with h1 h2 h3 h4 h5
  · rcases hp : parseFloat (dropRight t 1) with _ | q <;> simp [hp]
  · rcases hp : parseFloat (dropRight t 1) with _ | q <;> simp [hp]
  · rcases hp : parseFloat (dropRight t 1) with _ | q <;> simp [hp]
  · rcases hp : parseFloat (dropRight t 1) with _ | q <;> simp [hp]
  · rcases hp : parseFloat (dropRight t 2) with _ | q <;> simp [hp, div_eq_mul_inv]
  · rfl

theorem tokSplit_none_iff (t : List Char) :
    tokSplit t = Option.none ↔
      ¬(endswith t ['s'] = true ∨ endswith t ['m'] = true ∨ endswith t ['h'] = true ∨
        endswith t ['d'] = true) := by
  have hms : endswith t ['m', 's'] = true → endswith t ['s'] = true := by
    intro h
    exact (endswith_iff _ _).mpr (List.IsSuffix.trans (by decide) ((endswith_iff _ _).mp h))
  simp only [tokSplit]
  split_ifs with h1 h2 h3 h4 h5 <;>
    simp_all [Bool.and_eq_true, Bool.not_eq_true']

instance : DecidablePred numChar := fun c => by unfold numChar; infer_instance

/-- C5: the time parser is a pure function taking every valid
`<number><unit>` token to seconds: `ms` divides the magnitude by 1000,
`s` (with `ms` excluded) keeps it, `m` scales by 60, `h` by 3600 and `d`
by 86400; in particular `"5s"`, `"2m"`, `"1h"`, `"1d"` and `"500ms"`
parse to 5, 120, 3600, 86400 and 0.5 seconds. -/
theorem timeparser_units_correct :
    (∀ (m : List Char) (q : ℚ), (∀ c ∈ m, numChar c) → parseFloat m = some q → 0 ≤ q →
      parse_time (m ++ ['s']) = .ok q ∧
      parse_time (m ++ ['m']) = .ok (q * 60) ∧
      parse_time (m ++ ['h']) = .ok (q * 3600) ∧
      parse_time (m ++ ['d']) = .ok (q * 86400) ∧
      parse_time (m ++ ['m', 's']) = .ok (q / 1000)) ∧
    parse_time "5s".data = .ok 5 ∧ parse_time "2m".data = .ok 120 ∧
    parse_time "1h".data = .ok 3600 ∧ parse_time "1d".data = .ok 86400 ∧
    parse_time "500ms".data = .ok (1 / 2) := by
  refine ⟨?_, ?_, ?_, ?_, ?_, ?_⟩
  · intro m q hm hq h0
    have hsplit : m ++ ['m', 's'] = (m ++ ['m']) ++ ['s'] := by simp
    refine ⟨?_, ?_, ?_, ?_, ?_⟩
    · simp [parse_time, endswith_append_self, not_endswith_ms m hm,
        dropRight_append_one, hq, h0.not_lt]
    · simp [parse_time, endswith_append_self, endswith_last_ne m (by decide : ('m' : Char) ≠ 's'),
        dropRight_append_one, hq, (mul_nonneg h0 (by norm_num : (0:ℚ) ≤ 60)).not_lt]
    · simp [parse_time, endswith_append_self,
        endswith_last_ne m (by decide : ('h' : Char) ≠ 's'),
        endswith_last_ne m (by decide : ('h' : Char) ≠ 'm'),
        dropRight_append_one, hq, (mul_nonneg h0 (by norm_num : (0:ℚ) ≤ 3600)).not_lt]
    · simp [parse_time, endswith_append_self,
        endswith_last_ne m (by decide : ('d' : Char) ≠ 's'),
        endswith_last_ne m (by decide : ('d' : Char) ≠ 'm'),
        endswith_last_ne m (by decide : ('d' : Char) ≠ 'h'),
        dropRight_append_one, hq, (mul_nonneg h0 (by norm_num : (0:ℚ) ≤ 86400)).not_lt]
    · have hs : endswith (m ++ ['m', 's']) ['s'] = true := by
        rw [hsplit]; exact endswith_append_self _ _
      have hms : endswith (m ++ ['m', 's']) ['m', 's'] = true := endswith_append_self _ _
      have hm' : endswith (m ++ ['m', 's']) ['m'] = false := by
        rw [hsplit]; exact endswith_last_ne _ (by decide)
      have hh : endswith (m ++ ['m', 's']) ['h'] = false := by
        rw [hsplit]; exact endswith_last_ne _ (by decide)
      have hd : endswith (m ++ ['m', 's']) ['d'] = false := by
        rw [hsplit]; exact endswith_last_ne _ (by decide)
      simp [parse_time, hs, hms, hm', hh, hd, dropRight_append_two, hq,
        (div_nonneg h0 (by norm_num : (0:ℚ) ≤ 1000)).not_lt]
  · simp +decide [parse_time, endswith, dropRight, parseFloat, digitsToNat] <;> norm_num
  · simp +decide [parse_time, endswith, dropRight, parseFloat, digitsToNat] <;> norm_num
  · simp +decide [parse_time, endswith, dropRight, parseFloat, digitsToNat] <;> norm_num
  · simp +decide [parse_time, endswith, dropRight, parseFloat, digitsToNat] <;> norm_num
  · simp +decide [parse_time, endswith, dropRight, parseFloat, digitsToNat] <;> norm_num

theorem c5_witness :
    parseFloat "7".data = some 7 ∧ parse_time ("7".data ++ ['m']) = .ok (7 * 60) := by
  have h : parseFloat "7".data = some 7 := by
    simp +decide [parseFloat, digitsToNat]
  exact ⟨h, (timeparser_units_correct.1 "7".data 7 (by decide) h (by norm_num)).2.1⟩

/-- C6: tokens with no recognized suffix or an unparsable magnitude give
a format error, tokens whose seconds value is negative give a range
error, and a falsy optional duration argument parses to zero. -/
theorem timeparser_error_cases :
    (∀ t : List Char,
      (tokSplit t = Option.none ↔
        ¬(endswith t ['s'] = true ∨ endswith t ['m'] = true ∨ endswith t ['h'] = true ∨
          endswith t ['d'] = true)) ∧
      (tokSplit t = Option.none →
        parse_time t = .error Err.invalidFormat ∧ Err.invalidFormat.isFormatError)) ∧
    (∀ (t m : List Char) (f : ℚ), tokSplit t = some (m, f) → parseFloat m = Option.none →
      parse_time t = .error Err.floatConv ∧ Err.floatConv.isFormatError) ∧
    (∀ (t m : List Char) (f q : ℚ), tokSplit t = some (m, f) → parseFloat m = some q →
      q * f < 0 → parse_time t = .error Err.negativeInterval) ∧
    parse_optTime Option.none = .ok 0 ∧ parse_optTime (some []) = .ok 0 := by
  refine ⟨fun t => ⟨tokSplit_none_iff t, fun h => ⟨by rw [parse_time_eq, h], trivial⟩⟩,
    fun t m f hs hp => ⟨by rw [parse_time_eq, hs]; simp [hp], trivial⟩,
    fun t m f q hs hp hneg => by rw [parse_time_eq, hs]; simp [hp, if_pos hneg],
    rfl, rfl⟩

theorem c6_witness :
    parse_time "xyz".data = .error Err.invalidFormat ∧
    parse_time "zzs".data = .error Err.floatConv ∧
    parse_time "-5s".data = .error Err.negativeInterval := by
  refine ⟨(((timeparser_error_cases.1 "xyz".data).2 (by rfl)).1), ?_, ?_⟩
  · have hs : tokSplit "zzs".data = some ("zz".data, 1) := by rfl
    exact ((timeparser_error_cases.2.1 "zzs".data "zz".data 1 hs (by rfl)).1)
  · have hs : tokSplit "-5s".data = some ("-5".data, 1) := by rfl
    have hp : parseFloat "-5".data = some (-5) := by
      simp +decide [parseFloat, digitsToNat]
    exact timeparser_error_cases.2.2.1 "-5s".data "-5".data 1 (-5) hs hp (by norm_num)

theorem alookup_setAssoc_self {α : Type} (l : List (String × α)) (k : String) (v : α) :
    alookup k (setAssoc l k v) = some v := by
  induction l with
  | nil => simp [alookup, setAssoc]
  | cons p rest ih =>
    by_cases h : p.1 = k <;> simp [alookup, setAssoc, h, ih]

theorem alookup_setAssoc_ne {α : Type} (l : List (String × α)) {k k' : String}
    (h : k' ≠ k) (v : α) : alookup k' (setAssoc l k v) = alookup k' l := by
  induction l with
  | nil => simp [alookup, setAssoc, Ne.symm h]
  | cons p rest ih =>
    by_cases hp : p.1 = k <;> by_cases hp' : p.1 = k' <;>
      simp_all [alookup, setAssoc, Ne.symm h]

theorem setAssoc_eq_self {α : Type} {l : List (String × α)} {k : String} {v : α}
    (h : alookup k l = some v) : setAssoc l k v = l := by
  induction l with
  | nil => simp [alookup] at h
  | cons p rest ih =>
    by_cases hp : p.1 = k
    · simp [alookup, hp] at h
      cases p
      simp_all [setAssoc]
    · simp [alookup, hp] at h
      cases p
      simp_all [setAssoc]

theorem alookup_append {α : Type} (k : String) (l₁ l₂ : List (String × α)) :
    alookup k (l₁ ++ l₂) =
      match alookup k l₁ with
      | some v => some v
      | Option.none => alookup k l₂ := by
  induction l₁ with
  | nil => simp [alookup]
  | cons p rest ih =>
    by_cases hp : p.1 = k <;> simp [alookup, hp, ih]

theorem parse_time_5s : parse_time ['5', 's'] = .ok 5 := by
  simp +decide [parse_time, endswith, dropRight, parseFloat, digitsToNat]

/-- C7: registering a periodic task under a name already in the registry
raises the duplicate-name error and returns the scheduler state
untouched, for any registry containing the name (and any well-formed
time arguments, which are parsed before the name check). -/
theorem every_duplicate_rejected :
    ∀ (s : Forge) (interval : List Char) (delay jitter : Option (List Char))
      (limit : Option ℤ) (log : Bool) (group : Option String) (f : String) (i j d : ℚ),
      parse_time interval = .ok i → parse_optTime jitter = .ok j →
      parse_optTime delay = .ok d → (alookup f s.tasks).isSome = true →
      every interval delay jitter limit log group f s = (some (.nameExists f), s) := by
  intro s interval delay jitter limit log group f i j d hi hj hd hmem
  simp [every, hi, hj, hd, hmem]

theorem c7_witness :
    (alookup "t" forgeT.tasks).isSome = true ∧
      every ['5', 's'] Option.none Option.none Option.none false Option.none "t" forgeT =
        (some (Err.nameExists "t"), forgeT) :=
  ⟨by decide,
   every_duplicate_rejected forgeT ['5', 's'] Option.none Option.none Option.none false
     Option.none "t" 5 0 0 parse_time_5s rfl rfl (by decide)⟩

/-- C8 as stated is false: the record inserted by `after` does contain a
`state` field (set to `"active"`).  Registering a one-shot task on the
empty scheduler yields a record whose key list includes `"state"`. -/
theorem c8_counterexample :
    (after ['5', 's'] Option.none false "t" emptyForge).2.tasks =
      [("t", oneShotRec "t" 5 0 false)] ∧
    getField (oneShotRec "t" 5 0 false) "state" = some (Value.str "active") := by
  constructor
  · simp [after, parse_time_5s, parse_optTime, emptyForge, setAssoc]
  · rfl

/-- C8 amended: the record inserted by `after` holds exactly the fields
`function`, `state`, `delay`, `jitter` and `log` — no `interval`,
`limit` or `group` field — and the insertion overwrites under the
function's name without touching the group index. -/
theorem after_record_shape :
    ∀ (delay : List Char) (jitter : Option (List Char)) (log : Bool) (f : String)
      (s : Forge) (d j : ℚ),
      (if delay = [] then Except.ok 0 else parse_time delay) = Except.ok d →
      parse_optTime jitter = .ok j →
      after delay jitter log f s =
        (Option.none, ⟨setAssoc s.tasks f (oneShotRec f d j log), s.groups⟩) ∧
      (oneShotRec f d j log).map Prod.fst = ["function", "state", "delay", "jitter", "log"] ∧
      getField (oneShotRec f d j log) "interval" = Option.none ∧
      getField (oneShotRec f d j log) "limit" = Option.none ∧
      getField (oneShotRec f d j log) "group" = Option.none ∧
      getField (oneShotRec f d j log) "state" = some (Value.str "active") := by
  intro delay jitter log f s d j hd hj
  refine ⟨by simp [after, hd, hj], rfl, ?_, ?_, ?_, rfl⟩ <;>
    simp +decide [oneShotRec, getField, alookup]

theorem c8_witness :
    after ['5', 's'] Option.none false "u" forgeT =
        (Option.none, ⟨setAssoc forgeT.tasks "u" (oneShotRec "u" 5 0 false), forgeT.groups⟩) ∧
      getField (oneShotRec "u" 5 0 false) "state" = some (Value.str "active") :=
  ⟨(after_record_shape ['5', 's'] Option.none false "u" forgeT 5 0
      (by simp [parse_time_5s]) rfl).1,
   (after_record_shape ['5', 's'] Option.none false "u" forgeT 5 0
      (by simp [parse_time_5s]) rfl).2.2.2.2.2⟩

/-- C9: `pause`, `resume` and `stop` write `"paused"`, `"active"` and
`"stopped"` into the task's `state` field, leaving the rest of that
record, every other task and the group index unchanged; a missing name
raises not-found and changes nothing; and pausing an already-paused
task leaves the scheduler state exactly as it was. -/
theorem pause_resume_stop_contract :
    (∀ (s : Forge) (f : String) (r : TaskRec), alookup f s.tasks = some r →
      pause f s =
        (Option.none, ⟨setAssoc s.tasks f (setField r "state" (Value.str "paused")), s.groups⟩) ∧
      resume f s =
        (Option.none, ⟨setAssoc s.tasks f (setField r "state" (Value.str "active")), s.groups⟩) ∧
      stop f s =
        (Option.none, ⟨setAssoc s.tasks f (setField r "state" (Value.str "stopped")), s.groups⟩)) ∧
    (∀ (r : TaskRec) (st : Value) (k : String), k ≠ "state" →
      getField (setField r "state" st) k = getField r k) ∧
    (∀ (s : Forge) (f t : String) (r' : TaskRec), t ≠ f →
      alookup t (setAssoc s.tasks f r') = alookup t s.tasks) ∧
    (∀ (s : Forge) (f : String), alookup f s.tasks = Option.none →
      pause f s = (some (.taskNotFound f), s) ∧
      resume f s = (some (.taskNotFound f), s) ∧
      stop f s = (some (.taskNotFound f), s)) ∧
    (∀ (s : Forge) (f : String) (r : TaskRec), alookup f s.tasks = some r →
      getField r "state" = some (Value.str "paused") → pause f s = (Option.none, s)) := by
  refine ⟨?_, ?_, ?_, ?_, ?_⟩
  · intro s f r h
    refine ⟨?_, ?_, ?_⟩ <;> simp [pause, resume, stop, set_state, h]
  · intro r st k hk
    exact alookup_setAssoc_ne r hk st
  · intro s f t r' ht
    exact alookup_setAssoc_ne s.tasks ht r'
  · intro s f h
    refine ⟨?_, ?_, ?_⟩ <;> simp [pause, resume, stop, set_state, h]
  · intro s f r h hst
    have h1 : setAssoc r "state" (Value.str "paused") = r := setAssoc_eq_self hst
    have h2 : setAssoc s.tasks f r = s.tasks := setAssoc_eq_self h
    simp [pause, set_state, h, setField, h1, h2]

theorem c9_witness :
    pause "t" forgeT =
      (Option.none,
        ⟨setAssoc forgeT.tasks "t" (setField sampleRec "state" (Value.str "paused")),
         forgeT.groups⟩) ∧
    pause "u" forgeT = (some (.taskNotFound "u"), forgeT) :=
  ⟨((pause_resume_stop_contract.1 forgeT "t" sampleRec (by decide)).1),
   ((pause_resume_stop_contract.2.2.2.1 forgeT "u" (by decide)).1)⟩

/-- C10: `after` never checks for duplicates: registering a one-shot
task under an existing name succeeds and silently replaces the existing
record with the fresh one-shot record (other tasks and the group index
are untouched), while `every` under the same name raises the
duplicate-name error. -/
theorem after_overwrites_duplicates :
    ∀ (s : Forge) (f : String) (r₀ : TaskRec) (delay : List Char)
      (jitter : Option (List Char)) (log : Bool) (d j : ℚ)
      (interval : List Char) (delay' jitter' : Option (List Char)) (limit : Option ℤ)
      (log' : Bool) (group : Option String) (i j' d' : ℚ),
      alookup f s.tasks = some r₀ →
      (if delay = [] then Except.ok 0 else parse_time delay) = Except.ok d →
      parse_optTime jitter = .ok j →
      parse_time interval = .ok i → parse_optTime jitter' = .ok j' →
      parse_optTime delay' = .ok d' →
      ((after delay jitter log f s).1 = Option.none ∧
        alookup f (after delay jitter log f s).2.tasks = some (oneShotRec f d j log) ∧
        (∀ t, t ≠ f → alookup t (after delay jitter log f s).2.tasks = alookup t s.tasks) ∧
        (after delay jitter log f s).2.groups = s.groups) ∧
      every interval delay' jitter' limit log' group f s = (some (.nameExists f), s) := by
  intro s f r₀ delay jitter log d j interval delay' jitter' limit log' group i j' d'
  intro hmem hd hj hi hj' hd'
  have hafter : after delay jitter log f s =
      (Option.none, ⟨setAssoc s.tasks f (oneShotRec f d j log), s.groups⟩) := by
    simp [after, hd, hj]
  refine ⟨⟨by simp [hafter], ?_, ?_, by simp [hafter]⟩, ?_⟩
  · rw [hafter]
    exact alookup_setAssoc_self s.tasks f (oneShotRec f d j log)
  · intro t ht
    rw [hafter]
    exact alookup_setAssoc_ne s.tasks ht (oneShotRec f d j log)
  · simp [every, hi, hj', hd', hmem]

theorem c10_witness :
    alookup "t" forgeT.tasks = some sampleRec ∧
    alookup "t" (after ['2', 'm'] Option.none true "t" forgeT).2.tasks =
      some (oneShotRec "t" 120 0 true) ∧
    every ['5', 's'] Option.none Option.none Option.none false Option.none "t" forgeT =
      (some (Err.nameExists "t"), forgeT) := by
  have h2m : parse_time ['2', 'm'] = .ok 120 := by
    simp +decide [parse_time, endswith, dropRight, parseFloat, digitsToNat] <;> norm_num
  have h := after_overwrites_duplicates forgeT "t" sampleRec ['2', 'm'] Option.none true
    120 0 ['5', 's'] Option.none Option.none Option.none false Option.none 5 0 0
    (by decide) (by simp [h2m]) rfl parse_time_5s rfl rfl
  exact ⟨by decide, h.1.2.1, h.2⟩

/-- C2 as stated is false on two counts: a string target that names a
registered task but no group does not resolve to that task — expansion
raises the group-not-found error — and expansion does not deduplicate:
listing the same group twice yields its member twice. -/
theorem c2_counterexample :
    alookup "t" forgeG.tasks = some sampleRec ∧
    run_targets forgeG (some [Target.str "t"]) = .error (.groupNotFound "t") ∧
    run_targets forgeG (some [Target.str "g", Target.str "g"]) = .ok ["a", "a"] := by
  refine ⟨by decide, by rfl, by rfl⟩

/-- C2 amended: expansion yields a flat list (duplicates preserved) in
which every string target is looked up in the group index alone — it is
replaced by that group's current members when the string is a group
key, and otherwise fails with a not-found error, even when it names a
registered task — and every callable target contributes its function
name; `run` expands a truthy targets argument exactly this way. -/
theorem expand_targets_contract :
    (∀ (groups : List (String × List String)) (ts : List Target),
      (∀ g, Target.str g ∈ ts → (alookup g groups).isSome = true) →
      expand_targets groups ts = .ok (expandTargetsSpec groups ts)) ∧
    (∀ (groups : List (String × List String)) (ts : List Target) (g : String),
      Target.str g ∈ ts → alookup g groups = Option.none →
      ∃ g', alookup g' groups = Option.none ∧
        expand_targets groups ts = .error (.groupNotFound g')) ∧
    (∀ (s : Forge) (ts : List Target), ts ≠ [] →
      run_targets s (some ts) = expand_targets s.groups ts) := by
  refine ⟨?_, ?_, ?_⟩
  · intro groups ts h
    induction ts with
    | nil => rfl
    | cons p rest ih =>
      have hrest : ∀ g, Target.str g ∈ rest → (alookup g groups).isSome = true := by
        intro g hg
        exact h g (List.mem_cons_of_mem _ hg)
      cases p with
      | str t =>
        have := h t (List.mem_cons_self _ _)
        rcases hm : alookup t groups with _ | members
        · rw [hm] at this
          simp at this
        · simp [expand_targets, hm, ih hrest, expandTargetsSpec]
      | func n =>
        simp [expand_targets, ih hrest, expandTargetsSpec]
  · intro groups ts g hmem hnone
    induction ts with
    | nil => simp at hmem
    | cons p rest ih =>
      cases p with
      | str t =>
        rcases hm : alookup t groups with _ | members
        · exact ⟨t, hm, by simp [expand_targets, hm]⟩
        · have hg : Target.str g ∈ rest := by
            rcases List.mem_cons.mp hmem with h | h
            · cases h
              rw [hm] at hnone
              cases hnone
            · exact h
          obtain ⟨g', hg', heq⟩ := ih hg
          exact ⟨g', hg', by simp [expand_targets, hm, heq]⟩
      | func n =>
        have hg : Target.str g ∈ rest := by
          rcases List.mem_cons.mp hmem with h | h
          · cases h
          · exact h
        obtain ⟨g', hg', heq⟩ := ih hg
        exact ⟨g', hg', by simp [expand_targets, heq]⟩
  · intro s ts h
    simp [run_targets, h]

theorem c2_witness :
    (∀ g, Target.str g ∈ [Target.str "g", Target.func "t"] →
      (alookup g forgeG.groups).isSome = true) ∧
    expand_targets forgeG.groups [Target.str "g", Target.func "t"] =
      .ok (expandTargetsSpec forgeG.groups [Target.str "g", Target.func "t"]) := by
  have h : ∀ g, Target.str g ∈ [Target.str "g", Target.func "t"] →
      (alookup g forgeG.groups).isSome = true := by
    intro g hg
    rcases List.mem_cons.mp hg with h | h
    · injection h with h2
      subst h2
      decide
    · simp at h
  exact ⟨h, expand_targets_contract.1 forgeG.groups _ h⟩

theorem alookup_eq_none_iff {α : Type} (k : String) (l : List (String × α)) :
    alookup k l = Option.none ↔ k ∉ l.map Prod.fst := by
  induction l with
  | nil => simp [alookup]
  | cons p rest ih =>
    by_cases hp : p.1 = k <;> simp [alookup, hp, ih, Ne.symm, hp]

theorem alookup_mem {α : Type} {k : String} {l : List (String × α)} {v : α}
    (h : alookup k l = some v) : (k, v) ∈ l := by
  induction l with
  | nil => simp [alookup] at h
  | cons p rest ih =>
    by_cases hp : p.1 = k
    · simp [alookup, hp] at h
      cases p with
      | mk a b => simp_all
    · simp [alookup, hp] at h
      exact List.mem_cons_of_mem _ (ih h)

theorem mem_setAssoc {α : Type} {p : String × α} {l : List (String × α)} {k : String} {v : α}
    (h : p ∈ setAssoc l k v) : p ∈ l ∨ p.1 = k := by
  induction l with
  | nil => simp [setAssoc] at h; simp [h]
  | cons q rest ih =>
    by_cases hq : q.1 = k
    · simp [setAssoc, hq] at h
      rcases h with h | h
      · simp [h]
      · exact Or.inl (List.mem_cons_of_mem _ h)
    · simp [setAssoc, hq] at h
      rcases h with h | h
      · exact Or.inl (by simp [h])
      · rcases ih h with h' | h'
        · exact Or.inl (List.mem_cons_of_mem _ h')
        · exact Or.inr h'

theorem mem_removeKey {α : Type} {p : String × α} {l : List (String × α)} {k : String}
    (h : p ∈ removeKey k l) : p ∈ l := by
  induction l with
  | nil => simp [removeKey] at h
  | cons q rest ih =>
    by_cases hq : q.1 = k
    · simp [removeKey, hq] at h
      exact List.mem_cons_of_mem _ h
    · simp [removeKey, hq] at h
      rcases h with h | h
      · simp [h]
      · exact List.mem_cons_of_mem _ (ih h)

theorem keys_setAssoc_mem {α : Type} {l : List (String × α)} {k : String} (v : α)
    (h : k ∈ l.map Prod.fst) : (setAssoc l k v).map Prod.fst = l.map Prod.fst := by
  induction l with
  | nil => simp at h
  | cons q rest ih =>
    by_cases hq : q.1 = k
    · simp [setAssoc, hq]
    · have h0 : k ∈ q.1 :: rest.map Prod.fst := by
        rw [List.map_cons] at h
        exact h
      have h' : k ∈ rest.map Prod.fst := by
        rcases List.mem_cons.mp h0 with h1 | h1
        · exact absurd h1.symm hq
        · exact h1
      simp [setAssoc, hq, ih h']

theorem keys_setAssoc_not_mem {α : Type} {l : List (String × α)} {k : String} (v : α)
    (h : k ∉ l.map Prod.fst) : (setAssoc l k v).map Prod.fst = l.map Prod.fst ++ [k] := by
  induction l with
  | nil => simp [setAssoc]
  | cons q rest ih =>
    have h1 : q.1 ≠ k := by
      intro hc
      exact h (by simp [hc])
    have h2 : k ∉ rest.map Prod.fst := by
      intro hc
      exact h (by simp [hc])
    simp [setAssoc, h1, ih h2]

theorem keys_removeKey_sublist {α : Type} (k : String) (l : List (String × α)) :
    List.Sublist ((removeKey k l).map Prod.fst) (l.map Prod.fst) := by
  induction l with
  | nil => simp [removeKey]
  | cons q rest ih =>
    by_cases hq : q.1 = k
    · simp [removeKey, hq]
    · simp [removeKey, hq]
      exact ih

theorem alookup_removeKey_ne {α : Type} {k g : String} (h : g ≠ k) (l : List (String × α)) :
    alookup g (removeKey k l) = alookup g l := by
  induction l with
  | nil => simp [removeKey]
  | cons q rest ih =>
    by_cases hq : q.1 = k
    · simp [removeKey, hq, alookup, Ne.symm h]
    · by_cases hg : q.1 = g <;> simp [removeKey, hq, alookup, hg, h, ih]

theorem alookup_removeKey_self {α : Type} {k : String} {l : List (String × α)}
    (h : (l.map Prod.fst).Nodup) : alookup k (removeKey k l) = Option.none := by
  induction l with
  | nil => simp [removeKey, alookup]
  | cons q rest ih =>
    simp at h
    by_cases hq : q.1 = k
    · simp [removeKey, hq]
      rw [alookup_eq_none_iff]
      rw [hq] at h
      intro hc
      rcases List.mem_map.mp hc with ⟨p, hp, hpk⟩
      exact h.1 p.2 (by rw [← hpk]; exact hp)
    · simp [removeKey, hq, alookup, hq]
      exact ih h.2

theorem memberOf_setAssoc_self {gs : List (String × List String)} {k t : String}
    {ms : List String} : memberOf (setAssoc gs k ms) k t ↔ t ∈ ms := by
  unfold memberOf
  rw [alookup_setAssoc_self]
  simp

theorem memberOf_setAssoc_ne {gs : List (String × List String)} {g k t : String}
    (h : g ≠ k) {ms : List String} : memberOf (setAssoc gs k ms) g t ↔ memberOf gs g t := by
  unfold memberOf
  rw [alookup_setAssoc_ne _ h]

theorem memberOf_removeKey_ne {gs : List (String × List String)} {g k t : String}
    (h : g ≠ k) : memberOf (removeKey k gs) g t ↔ memberOf gs g t := by
  unfold memberOf
  rw [alookup_removeKey_ne h]

theorem memberOf_removeKey_self {gs : List (String × List String)} {k t : String}
    (h : (gs.map Prod.fst).Nodup) : ¬ memberOf (removeKey k gs) k t := by
  unfold memberOf
  rw [alookup_removeKey_self h]
  simp

theorem memberOf_addToGroup {gs : List (String × List String)} {k f g t : String} :
    memberOf (addToGroup gs k f) g t ↔ memberOf gs g t ∨ (g = k ∧ t = f) := by
  unfold addToGroup
  rcases hm : alookup k gs with _ | members
  · by_cases hg : g = k
    · subst hg
      unfold memberOf
      rw [alookup_append, hm]
      simp [alookup, hm]
    · unfold memberOf
      rw [alookup_append]
      cases h : alookup g gs <;> simp [alookup, hg, h]
      exact fun hc => absurd hc.symm hg
  · by_cases hg : g = k
    · subst hg
      rw [memberOf_setAssoc_self]
      unfold memberOf
      simp [hm]
    · rw [memberOf_setAssoc_ne hg]
      simp [hg]

theorem addToGroup_wf {gs : List (String × List String)} {g₀ f : String}
    (h1 : ∀ g ms, alookup g gs = some ms → ms.Nodup)
    (h2 : (gs.map Prod.fst).Nodup) (h3 : ∀ p ∈ gs, p.1 ≠ "") (hg₀ : g₀ ≠ "")
    (hf : ∀ ms, alookup g₀ gs = some ms → f ∉ ms) :
    (∀ g ms, alookup g (addToGroup gs g₀ f) = some ms → ms.Nodup) ∧
      ((addToGroup gs g₀ f).map Prod.fst).Nodup ∧
      (∀ p ∈ addToGroup gs g₀ f, p.1 ≠ "") := by
  unfold addToGroup
  rcases hm : alookup g₀ gs with _ | members
  · refine ⟨?_, ?_, ?_⟩
    · intro g ms h
      rw [alookup_append] at h
      rcases hg : alookup g gs with _ | ms'
      · rw [hg] at h
        simp [alookup] at h
        rcases h with ⟨_, h⟩
        subst h
        simp
      · rw [hg] at h
        simp at h
        subst h
        exact h1 g ms' hg
    · have : g₀ ∉ gs.map Prod.fst := (alookup_eq_none_iff _ _).mp hm
      simp [List.nodup_append, h2, this]
    · intro p hp
      rcases List.mem_append.mp hp with h | h
      · exact h3 p h
      · simp at h
        simp [h, hg₀]
  · refine ⟨?_, ?_, ?_⟩
    · intro g ms h
      by_cases hg : g = g₀
      · rw [hg, alookup_setAssoc_self] at h
        cases h
        have hnd := h1 g₀ members hm
        have hfm := hf members hm
        simp [List.nodup_append, hnd, hfm]
      · rw [alookup_setAssoc_ne _ hg] at h
        exact h1 g ms h
    · have : g₀ ∈ gs.map Prod.fst :=
        List.mem_map.mpr ⟨(g₀, members), alookup_mem hm, rfl⟩
      rw [keys_setAssoc_mem _ this]
      exact h2
    · intro p hp
      rcases mem_setAssoc hp with h | h
      · exact h3 p h
      · rw [h]
        exact hg₀

theorem getField_periodicRec_group (f : String) (i d j : ℚ) (limit : Option ℤ)
    (log : Bool) (group : Option String) :
    getField (periodicRec f i d j limit log group) "group" =
      some (match group with | some g₀ => Value.str g₀ | Option.none => Value.none) := by
  cases group <;> rfl

theorem every_wf_aux :
    ∀ (interval : List Char) (delay jitter : Option (List Char)) (limit : Option ℤ)
      (log : Bool) (group : Option String) (f : String) (s : Forge),
      forgeWF s → (group = Option.none ∨ ∃ g₀, group = some g₀ ∧ g₀ ≠ "") →
      forgeWF (every interval delay jitter limit log group f s).2 := by
  intro interval delay jitter limit log group f s hwf hgok
  have hagree := hwf.1
  have hnodup := hwf.2.1
  have hknd := hwf.2.2.1
  have hkne := hwf.2.2.2
  unfold every
  rcases parse_time interval with e | i
  · exact hwf
  rcases parse_optTime jitter with e | j
  · exact hwf
  rcases parse_optTime delay with e | d
  · exact hwf
  rcases hdup : (alookup f s.tasks).isSome with _ | _
  case ok.ok.ok.false =>
    have hf : alookup f s.tasks = Option.none := by
      rcases h : alookup f s.tasks with _ | r
      · rfl
      · rw [h] at hdup
        simp at hdup
    simp only [hdup, Bool.false_eq_true, if_false]
    have hlookup_f : alookup f (s.tasks ++ [(f, periodicRec f i d j limit log group)]) =
        some (periodicRec f i d j limit log group) := by
      rw [alookup_append, hf]
      simp [alookup]
    have hlookup_ne : ∀ t, t ≠ f →
        alookup t (s.tasks ++ [(f, periodicRec f i d j limit log group)]) =
          alookup t s.tasks := by
      intro t ht
      rw [alookup_append]
      rcases h : alookup t s.tasks with _ | r <;> simp [alookup, Ne.symm ht]
    have hnomem : ∀ g, ¬ memberOf s.groups g f := by
      intro g hm
      obtain ⟨r, hr, _⟩ := (hagree g f).mp hm
      rw [hf] at hr
      cases hr
    rcases hgok with hnone | ⟨g₀, hg₀, hg₀ne⟩
    · subst hnone
      have hcondn : groupTruthy Option.none = false := rfl
      simp only [hcondn, Bool.false_eq_true, if_false]
      refine ⟨?_, hnodup, hknd, hkne⟩
      intro g t
      constructor
      · intro hm
        obtain ⟨r, hr, hgr⟩ := (hagree g t).mp hm
        have htf : t ≠ f := by
          intro hc
          rw [hc, hf] at hr
          cases hr
        exact ⟨r, by rw [hlookup_ne t htf]; exact hr, hgr⟩
      · rintro ⟨r, hr, hgr⟩
        by_cases htf : t = f
        · rw [htf, hlookup_f] at hr
          cases hr
          rw [getField_periodicRec_group] at hgr
          simp at hgr
        · rw [hlookup_ne t htf] at hr
          exact (hagree g t).mpr ⟨r, hr, hgr⟩
    · subst hg₀
      have hcond : groupTruthy (some g₀) = true := by simp [groupTruthy, hg₀ne]
      simp only [hcond, if_true, Option.getD_some]
      have hfm : ∀ ms, alookup g₀ s.groups = some ms → f ∉ ms := by
        intro ms hms hmem
        exact hnomem g₀ ⟨ms, hms, hmem⟩
      obtain ⟨h1', h2', h3'⟩ := addToGroup_wf hnodup hknd hkne hg₀ne hfm
      refine ⟨?_, h1', h2', h3'⟩
      intro g t
      rw [memberOf_addToGroup]
      constructor
      · rintro (hm | ⟨hg, ht⟩)
        · obtain ⟨r, hr, hgr⟩ := (hagree g t).mp hm
          have htf : t ≠ f := by
            intro hc
            rw [hc, hf] at hr
            cases hr
          exact ⟨r, by rw [hlookup_ne t htf]; exact hr, hgr⟩
        · refine ⟨periodicRec f i d j limit log (some g₀), ?_, ?_⟩
          · rw [ht]
            exact hlookup_f
          · rw [getField_periodicRec_group, hg]
      · rintro ⟨r, hr, hgr⟩
        by_cases htf : t = f
        · rw [htf, hlookup_f] at hr
          cases hr
          rw [getField_periodicRec_group] at hgr
          have hg' : g₀ = g := by simpa using hgr
          right
          exact ⟨hg'.symm, htf⟩
        · rw [hlookup_ne t htf] at hr
          exact Or.inl ((hagree g t).mpr ⟨r, hr, hgr⟩)
  case ok.ok.ok.true =>
    simp only [hdup, if_true]
    exact hwf

theorem wf_update_record_nongroup {s : Forge} {f : String} {r r' : TaskRec}
    (hwf : forgeWF s) (hr : alookup f s.tasks = some r)
    (hgr : getField r' "group" = getField r "group") :
    forgeWF ⟨setAssoc s.tasks f r', s.groups⟩ := by
  refine ⟨?_, hwf.2⟩
  intro g t
  constructor
  · intro hm
    obtain ⟨r₀, hr₀, hg₀⟩ := (hwf.1 g t).mp hm
    by_cases ht : t = f
    · refine ⟨r', by rw [ht]; exact alookup_setAssoc_self _ _ _, ?_⟩
      rw [ht, hr] at hr₀
      cases hr₀
      rw [hgr]
      exact hg₀
    · exact ⟨r₀, by rw [alookup_setAssoc_ne _ ht]; exact hr₀, hg₀⟩
  · rintro ⟨r₁, h1, h2⟩
    by_cases ht : t = f
    · rw [ht, alookup_setAssoc_self] at h1
      cases h1
      rw [hgr] at h2
      exact (hwf.1 g t).mpr ⟨r, by rw [ht]; exact hr, h2⟩
    · rw [alookup_setAssoc_ne _ ht] at h1
      exact (hwf.1 g t).mpr ⟨r₁, h1, h2⟩

theorem removal_wf {s : Forge} {f og : String} {members : List String}
    (hwf : forgeWF s) (hogne : og ≠ "")
    (hms : alookup og s.groups = some members) (hfm : f ∈ members) :
    (∀ g t,
      memberOf (if members.erase f = [] then removeKey og s.groups
        else setAssoc s.groups og (members.erase f)) g t ↔
        (memberOf s.groups g t ∧ ¬(g = og ∧ t = f))) ∧
    (∀ g ms, alookup g (if members.erase f = [] then removeKey og s.groups
        else setAssoc s.groups og (members.erase f)) = some ms → ms.Nodup) ∧
    (((if members.erase f = [] then removeKey og s.groups
        else setAssoc s.groups og (members.erase f)).map Prod.fst).Nodup) ∧
    (∀ p ∈ (if members.erase f = [] then removeKey og s.groups
        else setAssoc s.groups og (members.erase f)), p.1 ≠ "") := by
  have hnodup := hwf.2.1
  have hknd := hwf.2.2.1
  have hkne := hwf.2.2.2
  have hmnd : members.Nodup := hnodup og members hms
  by_cases he : members.erase f = []
  · simp only [he, if_true]
    refine ⟨?_, ?_, ?_, ?_⟩
    · intro g t
      by_cases hg : g = og
      · subst hg
        constructor
        · intro hm
          exact absurd hm (memberOf_removeKey_self hknd)
        · rintro ⟨⟨ms', hms', ht⟩, hne⟩
          rw [hms] at hms'
          cases hms'
          by_cases htf : t = f
          · exact absurd ⟨rfl, htf⟩ hne
          · have : t ∈ members.erase f := (List.mem_erase_of_ne htf).mpr ht
            rw [he] at this
            cases this
      · rw [memberOf_removeKey_ne hg]
        constructor
        · intro hm
          exact ⟨hm, fun hc => hg hc.1⟩
        · exact fun hm => hm.1
    · intro g ms h
      by_cases hg : g = og
      · rw [hg, alookup_removeKey_self hknd] at h
        cases h
      · rw [alookup_removeKey_ne hg] at h
        exact hnodup g ms h
    · exact (keys_removeKey_sublist og s.groups).nodup hknd
    · exact fun p hp => hkne p (mem_removeKey hp)
  · simp only [he, if_false]
    refine ⟨?_, ?_, ?_, ?_⟩
    · intro g t
      by_cases hg : g = og
      · subst hg
        rw [memberOf_setAssoc_self]
        rw [hmnd.mem_erase_iff]
        constructor
        · rintro ⟨htf, ht⟩
          exact ⟨⟨members, hms, ht⟩, fun hc => htf hc.2⟩
        · rintro ⟨⟨ms', hms', ht⟩, hne⟩
          rw [hms] at hms'
          cases hms'
          exact ⟨fun hc => hne ⟨rfl, hc⟩, ht⟩
      · rw [memberOf_setAssoc_ne hg]
        constructor
        · intro hm
          exact ⟨hm, fun hc => hg hc.1⟩
        · exact fun hm => hm.1
    · intro g ms h
      by_cases hg : g = og
      · rw [hg, alookup_setAssoc_self] at h
        cases h
        exact hmnd.erase f
      · rw [alookup_setAssoc_ne _ hg] at h
        exact hnodup g ms h
    · rw [keys_setAssoc_mem _ (List.mem_map.mpr ⟨(og, members), alookup_mem hms, rfl⟩)]
      exact hknd
    · intro p hp
      rcases mem_setAssoc hp with h | h
      · exact hkne p h
      · rw [h]
        exact hogne

theorem getField_setField_self (r : TaskRec) (k : String) (v : Value) :
    getField (setField r k v) k = some v :=
  alookup_setAssoc_self r k v

theorem getField_setField_ne (r : TaskRec) {k k' : String} (h : k' ≠ k) (v : Value) :
    getField (setField r k v) k' = getField r k' :=
  alookup_setAssoc_ne r h v

theorem final_wf {s : Forge} {f : String} {r : TaskRec} {v : Value}
    {gs' : List (String × List String)}
    (hwf : forgeWF s) (hr : alookup f s.tasks = some r)
    (hchar : ∀ g t, memberOf gs' g t ↔
      ((memberOf s.groups g t ∧ t ≠ f) ∨ (t = f ∧ v = Value.str g)))
    (hnd : ∀ g ms, alookup g gs' = some ms → ms.Nodup)
    (hknd : (gs'.map Prod.fst).Nodup) (hkne : ∀ p ∈ gs', p.1 ≠ "") :
    forgeWF ⟨setAssoc s.tasks f (setField r "group" v), gs'⟩ := by
  refine ⟨?_, hnd, hknd, hkne⟩
  intro g t
  rw [hchar g t]
  constructor
  · rintro (⟨hm, ht⟩ | ⟨ht, hv⟩)
    · obtain ⟨r₀, h0, hg0⟩ := (hwf.1 g t).mp hm
      exact ⟨r₀, by rw [alookup_setAssoc_ne _ ht]; exact h0, hg0⟩
    · refine ⟨setField r "group" v, ?_, ?_⟩
      · rw [ht]
        exact alookup_setAssoc_self _ _ _
      · rw [getField_setField_self, hv]
  · rintro ⟨r₁, h1, h2⟩
    by_cases ht : t = f
    · right
      refine ⟨ht, ?_⟩
      rw [ht, alookup_setAssoc_self] at h1
      cases h1
      rw [getField_setField_self] at h2
      exact Option.some.inj h2
    · left
      rw [alookup_setAssoc_ne _ ht] at h1
      exact ⟨(hwf.1 g t).mpr ⟨r₁, h1, h2⟩, ht⟩

theorem editStep_wf (f prop : String) (v : Value) (s : Forge) (hwf : forgeWF s)
    (hv : prop = "group" → v = Value.none ∨ ∃ g, v = Value.str g ∧ g ≠ "") :
    forgeWF (editStep f prop v s).2 := by
  rcases hr : alookup f s.tasks with _ | r
  · simp [editStep, hr]
    exact hwf
  by_cases hpn : (getField r prop).isNone = true
  · simp [editStep, hr, hpn]
    exact hwf
  have hpn' : (getField r prop).isNone = false := Bool.eq_false_iff.mpr hpn
  by_cases hpg : prop = "group"
  case neg =>
    have hgne : ("group" : String) ≠ prop := fun hc => hpg hc.symm
    by_cases ht : prop = "delay" ∨ prop = "interval" ∨ prop = "jitter"
    · rcases v with _ | tok | q | n | b | fname
      · simp [editStep, hr, hpn', hpg, ht]
        exact hwf
      · rcases hpt : parse_time tok.data with e | q
        · simp [editStep, hr, hpn', hpg, ht, hpt]
          exact hwf
        · simp [editStep, hr, hpn', hpg, ht, hpt]
          exact wf_update_record_nongroup hwf hr (getField_setField_ne r hgne _)
      · simp [editStep, hr, hpn', hpg, ht]
        exact hwf
      · simp [editStep, hr, hpn', hpg, ht]
        exact hwf
      · simp [editStep, hr, hpn', hpg, ht]
        exact hwf
      · simp [editStep, hr, hpn', hpg, ht]
        exact hwf
    · simp [editStep, hr, hpn', hpg, ht]
      exact wf_update_record_nongroup hwf hr (getField_setField_ne r hgne _)
  case pos =>
    subst hpg
    have hv' := hv rfl
    have htiming : ¬(("group" : String) = "delay" ∨ ("group" : String) = "interval" ∨
        ("group" : String) = "jitter") := by decide
    rcases hog : getField r "group" with _ | ogv
    · rw [hog] at hpn'
      simp at hpn'
    by_cases hot : ogv.truthy = true
    · rcases ogv with _ | og | q | n | b | fname
      · simp [Value.truthy] at hot
      · have hogne : og ≠ "" := by simpa [Value.truthy] using hot
        have hgf : ∀ g, memberOf s.groups g f ↔ g = og := by
          intro g
          constructor
          · intro hm
            obtain ⟨r₀, hr₀, hg₀⟩ := (hwf.1 g f).mp hm
            rw [hr] at hr₀
            cases hr₀
            rw [hog] at hg₀
            exact (Value.str.inj (Option.some.inj hg₀)).symm
          · intro hg
            rw [hg]
            exact (hwf.1 og f).mpr ⟨r, hr, hog⟩
        rcases hms : alookup og s.groups with _ | members
        · simp [editStep, hr, hpn', hog, hot, hms, htiming]
          exact hwf
        by_cases hfm : f ∈ members
        · obtain ⟨hchar₁, hnd₁, hknd₁, hkne₁⟩ := removal_wf hwf hogne hms hfm
          have hgt : (Value.str og).truthy = true := by simp [Value.truthy, hogne]
          rcases hv' with hvn | ⟨vg, hvg, hvgne⟩
          · subst hvn
            have hvt : Value.none.truthy = false := rfl
            simp only [editStep, hr, hog, Option.isNone_some, Bool.false_eq_true,
              ite_false, ite_true, eq_self_iff_true, hgt, hvt, hms, if_pos hfm,
              if_neg htiming]
            refine final_wf hwf hr ?_ hnd₁ hknd₁ hkne₁
            intro g t
            rw [hchar₁ g t]
            constructor
            · rintro ⟨hm, hne⟩
              exact Or.inl ⟨hm, fun hc => hne ⟨(hgf g).mp (hc ▸ hm), hc⟩⟩
            · rintro (⟨hm, ht⟩ | ⟨ht, hveq⟩)
              · exact ⟨hm, fun hc => ht hc.2⟩
              · cases hveq
          · subst hvg
            have hf' : ∀ ms,
                alookup vg (if members.erase f = [] then removeKey og s.groups
                  else setAssoc s.groups og (members.erase f)) = some ms → f ∉ ms := by
              intro ms hmsl hmem
              have hmm : memberOf (if members.erase f = [] then removeKey og s.groups
                  else setAssoc s.groups og (members.erase f)) vg f := ⟨ms, hmsl, hmem⟩
              rw [hchar₁] at hmm
              exact hmm.2 ⟨(hgf vg).mp hmm.1, rfl⟩
            obtain ⟨h1', h2', h3'⟩ := addToGroup_wf hnd₁ hknd₁ hkne₁ hvgne hf'
            have hvt : (Value.str vg).truthy = true := by simp [Value.truthy, hvgne]
            simp only [editStep, hr, hog, Option.isNone_some, Bool.false_eq_true,
              ite_false, ite_true, eq_self_iff_true, hgt, hvt, hms, if_pos hfm,
              if_neg htiming]
            refine final_wf hwf hr ?_ h1' h2' h3'
            intro g t
            rw [memberOf_addToGroup, hchar₁]
            constructor
            · rintro (⟨hm, hne⟩ | ⟨hgq, htf⟩)
              · exact Or.inl ⟨hm, fun hc => hne ⟨(hgf g).mp (hc ▸ hm), hc⟩⟩
              · refine Or.inr ⟨htf, ?_⟩
                rw [hgq]
            · rintro (⟨hm, ht⟩ | ⟨ht, hveq⟩)
              · exact Or.inl ⟨hm, fun hc => ht hc.2⟩
              · exact Or.inr ⟨(Value.str.inj hveq).symm, ht⟩
        · simp [editStep, hr, hpn', hog, hot, hms, hfm, htiming]
          exact hwf
      · simp [editStep, hr, hpn', hog, hot, htiming]
        exact hwf
      · simp [editStep, hr, hpn', hog, hot, htiming]
        exact hwf
      · simp [editStep, hr, hpn', hog, hot, htiming]
        exact hwf
      · simp [editStep, hr, hpn', hog, hot, htiming]
        exact hwf
    · have hot' : ogv.truthy = false := Bool.eq_false_iff.mpr hot
      have hnomem : ∀ g, ¬ memberOf s.groups g f := by
        intro g hm
        obtain ⟨r₀, hr₀, hg₀⟩ := (hwf.1 g f).mp hm
        rw [hr] at hr₀
        cases hr₀
        rw [hog] at hg₀
        have hq := Option.some.inj hg₀
        have hot'' := hot'
        rw [hq] at hot''
        simp [Value.truthy] at hot''
        obtain ⟨ms, hmsl, _⟩ := hm
        exact hwf.2.2.2 _ (alookup_mem hmsl) hot''
      rcases hv' with hvn | ⟨vg, hvg, hvgne⟩
      · subst hvn
        have hvt : Value.none.truthy = false := rfl
        simp only [editStep, hr, hog, Option.isNone_some, Bool.false_eq_true,
          ite_false, ite_true, eq_self_iff_true, hot', hvt, if_neg htiming]
        refine final_wf hwf hr ?_ hwf.2.1 hwf.2.2.1 hwf.2.2.2
        intro g t
        constructor
        · intro hm
          exact Or.inl ⟨hm, fun hc => hnomem g (hc ▸ hm)⟩
        · rintro (⟨hm, _⟩ | ⟨_, hveq⟩)
          · exact hm
          · cases hveq
      · subst hvg
        have hf' : ∀ ms, alookup vg s.groups = some ms → f ∉ ms :=
          fun ms hmsl hmem => hnomem vg ⟨ms, hmsl, hmem⟩
        obtain ⟨h1', h2', h3'⟩ := addToGroup_wf hwf.2.1 hwf.2.2.1 hwf.2.2.2 hvgne hf'
        have hvt : (Value.str vg).truthy = true := by simp [Value.truthy, hvgne]
        simp only [editStep, hr, hog, Option.isNone_some, Bool.false_eq_true,
          ite_false, ite_true, eq_self_iff_true, hot', hvt, if_neg htiming]
        refine final_wf hwf hr ?_ h1' h2' h3'
        intro g t
        rw [memberOf_addToGroup]
        constructor
        · rintro (hm | ⟨hgq, htf⟩)
          · exact Or.inl ⟨hm, fun hc => hnomem g (hc ▸ hm)⟩
          · refine Or.inr ⟨htf, ?_⟩
            rw [hgq]
        · rintro (⟨hm, _⟩ | ⟨ht, hveq⟩)
          · exact Or.inl hm
          · exact Or.inr ⟨(Value.str.inj hveq).symm, ht⟩

theorem editLoop_wf (f : String) (updates : List (String × Value)) (s : Forge)
    (hwf : forgeWF s)
    (hv : ∀ p v, (p, v) ∈ updates → p = "group" →
      v = Value.none ∨ ∃ g, v = Value.str g ∧ g ≠ "") :
    forgeWF (editLoop f updates s).2 := by
  induction updates generalizing s with
  | nil =>
    simpa [editLoop] using hwf
  | cons pv rest ih =>
    obtain ⟨p, v⟩ := pv
    have h1 := editStep_wf f p v s hwf (hv p v (List.mem_cons_self _ _))
    rcases hstep : editStep f p v s with ⟨e, s'⟩
    rw [hstep] at h1
    rcases e with _ | e
    · simp only [editLoop, hstep]
      exact ih s' h1 (fun p' v' hm => hv p' v' (List.mem_cons_of_mem _ hm))
    · simp only [editLoop, hstep]
      exact h1

/-- C4: with well-formed inputs — registration with an absent or
non-empty group name, and edits whose `group` values are `None` or a
non-empty group name — both `every` and `edit` preserve the
group-agreement invariant (together with the structural well-formedness
of the group index that the invariant needs inductively), including on
every error path, partly committed edits included. -/
theorem group_invariant_preserved :
    (∀ (interval : List Char) (delay jitter : Option (List Char)) (limit : Option ℤ)
      (log : Bool) (group : Option String) (f : String) (s : Forge),
      forgeWF s → (group = Option.none ∨ ∃ g₀, group = some g₀ ∧ g₀ ≠ "") →
      groupsAgree (every interval delay jitter limit log group f s).2 ∧
        forgeWF (every interval delay jitter limit log group f s).2) ∧
    (∀ (f : String) (updates : List (String × Value)) (s : Forge),
      forgeWF s →
      (∀ p v, (p, v) ∈ updates → p = "group" →
        v = Value.none ∨ ∃ g, v = Value.str g ∧ g ≠ "") →
      groupsAgree (edit f updates s).2 ∧ forgeWF (edit f updates s).2) := by
  constructor
  · intro interval delay jitter limit log group f s hwf hgok
    have h := every_wf_aux interval delay jitter limit log group f s hwf hgok
    exact ⟨h.1, h⟩
  · intro f updates s hwf hv
    rcases hmem : (alookup f s.tasks).isSome with _ | _
    · have h : edit f updates s = (some (.taskNotFound f), s) := by
        simp [edit, hmem]
      rw [h]
      exact ⟨hwf.1, hwf⟩
    · have h : edit f updates s = editLoop f updates s := by
        simp [edit, hmem]
      rw [h]
      have h1 := editLoop_wf f updates s hwf hv
      exact ⟨h1.1, h1⟩

theorem c4_witness :
    forgeWF emptyForge ∧
    groupsAgree
      (every ['5', 's'] Option.none Option.none Option.none false (some "g") "t"
        emptyForge).2 := by
  have hwf : forgeWF emptyForge := by
    refine ⟨?_, ?_, ?_, ?_⟩
    · intro g t
      constructor
      · rintro ⟨ms, hms, _⟩
        simp [emptyForge, alookup] at hms
      · rintro ⟨r, hr, _⟩
        simp [emptyForge, alookup] at hr
    · intro g ms h
      simp [emptyForge, alookup] at h
    · simp [emptyForge]
    · simp [emptyForge]
  exact ⟨hwf,
    (group_invariant_preserved.1 ['5', 's'] Option.none Option.none Option.none false
      (some "g") "t" emptyForge hwf (Or.inr ⟨"g", rfl, by decide⟩)).1⟩

theorem loopIter_guard_false (recs : ℕ → PropsView) (jit : ℕ → ℚ) (ok : ℕ → Bool)
    (fuel : ℕ) (lim : Option ℤ) (i : ℕ) (h : limGuard lim = false) :
    loopIter recs jit ok fuel lim i = some [] := by
  rw [loopIter.eq_def]
  simp [h]

theorem loopIter_exec (recs : ℕ → PropsView) (jit : ℕ → ℚ) (ok : ℕ → Bool)
    (fuel : ℕ) (lim : Option ℤ) (i : ℕ) (hg : limGuard lim = true)
    (hp : (recs i).state ≠ "paused") (hs : (recs i).state ≠ "stopped")
    (hok : ¬(ok i = false ∧ (recs i).log = true)) :
    loopIter recs jit ok (fuel + 1) lim i =
      (loopIter recs jit ok fuel (lim.map (· - 1)) (i + 1)).map
        (fun r => Event.callE :: (intervalSleep recs jit i ++ r)) := by
  rw [loopIter.eq_def]
  simp [hg, hp, hs, hok]

theorem loopIter_raise (recs : ℕ → PropsView) (jit : ℕ → ℚ) (ok : ℕ → Bool)
    (fuel : ℕ) (lim : Option ℤ) (i : ℕ) (hg : limGuard lim = true)
    (hp : (recs i).state ≠ "paused") (hs : (recs i).state ≠ "stopped")
    (hok : ok i = false) (hlog : (recs i).log = true) :
    loopIter recs jit ok (fuel + 1) lim i = some [Event.callE, Event.raiseE] := by
  rw [loopIter.eq_def]
  simp [hg, hp, hs, hok, hlog]

theorem intervalSleep_count (recs : ℕ → PropsView) (jit : ℕ → ℚ) (i : ℕ) :
    (intervalSleep recs jit i).count Event.callE = 0 := by
  unfold intervalSleep
  split <;> rfl

theorem intervalSleep_length (recs : ℕ → PropsView) (jit : ℕ → ℚ) (i : ℕ) :
    (intervalSleep recs jit i).length ≤ 1 := by
  unfold intervalSleep
  split <;> simp

/-- C1 corrected: a periodic task registered with `limit = 3`, never
paused or stopped and with a wrapped function that never raises,
executes exactly 3 times and then its loop terminates — but the third
iteration's inter-run sleep still happens after the third execution
(when the jittered interval is positive); only that one sleep and no
further execution follows the third call. -/
theorem limit_three_executes_three_times :
    ∀ (recs : ℕ → PropsView) (jit : ℕ → ℚ) (fuel : ℕ),
      (∀ i, (recs i).state ≠ "paused" ∧ (recs i).state ≠ "stopped") →
      (recs 0).limit = some 3 →
      periodicWrapper (fuel + 3) recs jit (fun _ => true) =
        some (Event.sleepE (recs 0).delay ::
          Event.callE :: (intervalSleep recs jit 1 ++
            Event.callE :: (intervalSleep recs jit 2 ++
              Event.callE :: intervalSleep recs jit 3))) ∧
      (Event.sleepE (recs 0).delay ::
          Event.callE :: (intervalSleep recs jit 1 ++
            Event.callE :: (intervalSleep recs jit 2 ++
              Event.callE :: intervalSleep recs jit 3))).count Event.callE = 3 ∧
      (intervalSleep recs jit 3).count Event.callE = 0 ∧
      (intervalSleep recs jit 3).length ≤ 1 := by
  intro recs jit fuel hstate hlim
  have hbeq : ∀ d : ℚ, (Event.sleepE d == Event.callE) = false := fun d => rfl
  refine ⟨?_, ?_, intervalSleep_count recs jit 3, intervalSleep_length recs jit 3⟩
  · unfold periodicWrapper
    rw [hlim]
    have hm3 : (some (3 : ℤ)).map (· - 1) = some 2 := by norm_num
    have hm2 : (some (2 : ℤ)).map (· - 1) = some 1 := by norm_num
    have hm1 : (some (1 : ℤ)).map (· - 1) = some 0 := by norm_num
    have e1 := loopIter_exec recs jit (fun _ => true) (fuel + 2) (some 3) 1
      (by decide) (hstate 1).1 (hstate 1).2 (by simp)
    have e2 := loopIter_exec recs jit (fun _ => true) (fuel + 1) (some 2) 2
      (by decide) (hstate 2).1 (hstate 2).2 (by simp)
    have e3 := loopIter_exec recs jit (fun _ => true) fuel (some 1) 3
      (by decide) (hstate 3).1 (hstate 3).2 (by simp)
    have e4 := loopIter_guard_false recs jit (fun _ => true) fuel (some 0) 4 (by decide)
    rw [hm3] at e1
    rw [hm2] at e2
    rw [hm1] at e3
    rw [e4] at e3
    rw [e3] at e2
    rw [e2] at e1
    rw [e1]
    simp
  · simp [List.count_cons, List.count_append, intervalSleep_count, hbeq]

theorem c1_witness :
    periodicWrapper (1 + 3) (fun _ => cProps) (fun _ => 0) (fun _ => true) =
      some (Event.sleepE cProps.delay ::
        Event.callE :: (intervalSleep (fun _ => cProps) (fun _ => 0) 1 ++
          Event.callE :: (intervalSleep (fun _ => cProps) (fun _ => 0) 2 ++
            Event.callE :: intervalSleep (fun _ => cProps) (fun _ => 0) 3))) :=
  limit_three_executes_three_times (fun _ => cProps) (fun _ => 0) 1
    (fun _ => ⟨(by decide : cProps.state ≠ "paused"),
      (by decide : cProps.state ≠ "stopped")⟩) rfl |>.1

/-- C1 as stated is false: for a limit-3 task with a 5 second interval
that is never paused or stopped, the worker's trace ends with an
interval sleep that comes after the third (and last) execution. -/
theorem c1_counterexample :
    periodicWrapper 4 (fun _ => cProps) (fun _ => 0) (fun _ => true) =
      some [Event.sleepE 0, Event.callE, Event.sleepE 5, Event.callE, Event.sleepE 5,
        Event.callE, Event.sleepE 5] ∧
    ([Event.sleepE 0, Event.callE, Event.sleepE 5, Event.callE, Event.sleepE 5,
        Event.callE, Event.sleepE 5] : List Event).count Event.callE = 3 ∧
    ([Event.sleepE 0, Event.callE, Event.sleepE 5, Event.callE, Event.sleepE 5,
        Event.callE, Event.sleepE 5] : List Event).getLast? = some (Event.sleepE 5) := by
  have hivl : ∀ i, intervalSleep (fun _ => cProps) (fun _ => 0) i = [Event.sleepE 5] := by
    intro i
    unfold intervalSleep cProps
    norm_num
  refine ⟨?_, by decide, by rfl⟩
  have hg3 : limGuard (some 3) = true := by decide
  have hm3 : (some (3 : ℤ)).map (· - 1) = some 2 := by norm_num
  have hm2 : (some (2 : ℤ)).map (· - 1) = some 1 := by norm_num
  have hm1 : (some (1 : ℤ)).map (· - 1) = some 0 := by norm_num
  have e1 := loopIter_exec (fun _ => cProps) (fun _ => 0) (fun _ => true) 3 (some 3) 1
    hg3 (by decide) (by decide) (by simp)
  have e2 := loopIter_exec (fun _ => cProps) (fun _ => 0) (fun _ => true) 2 (some 2) 2
    (by decide) (by decide) (by decide) (by simp)
  have e3 := loopIter_exec (fun _ => cProps) (fun _ => 0) (fun _ => true) 1 (some 1) 3
    (by decide) (by decide) (by decide) (by simp)
  have e4 := loopIter_guard_false (fun _ => cProps) (fun _ => 0) (fun _ => true) 1
    (some 0) 4 (by decide)
  rw [hm3] at e1
  rw [hm2] at e2
  rw [hm1] at e3
  rw [e4] at e3
  rw [e3] at e2
  rw [e2] at e1
  unfold periodicWrapper
  simp only [show ((fun _ : ℕ => cProps) 0).limit = some 3 from rfl,
    show ((fun _ : ℕ => cProps) 0).delay = 0 from rfl]
  rw [show (4 : ℕ) = 3 + 1 from rfl, e1]
  simp [hivl]

/-- C3: an exception from the wrapped function is re-raised as the
wrapping runtime error — ending that worker with no further iterations —
exactly when the snapshot's `log` is true, and is swallowed with the
periodic loop continuing into its next iteration (after the usual
interval sleep and limit decrement) when `log` is false; the one-shot
wrapper applies the same policy to its single execution. -/
theorem exception_policy :
    (∀ (recs : ℕ → PropsView) (jit : ℕ → ℚ) (ok : ℕ → Bool) (fuel : ℕ)
      (lim : Option ℤ) (i : ℕ),
      limGuard lim = true → (recs i).state ≠ "paused" → (recs i).state ≠ "stopped" →
      ok i = false →
      ((recs i).log = true →
        loopIter recs jit ok (fuel + 1) lim i = some [Event.callE, Event.raiseE]) ∧
      ((recs i).log = false →
        loopIter recs jit ok (fuel + 1) lim i =
          (loopIter recs jit ok fuel (lim.map (· - 1)) (i + 1)).map
            (fun r => Event.callE :: (intervalSleep recs jit i ++ r)))) ∧
    (∀ (p : OneShotView) (jit : ℚ) (ok : Bool), ok = false →
      (p.log = true →
        afterWrapper p jit ok =
          (if 0 < p.delay + jit then [Event.sleepE (p.delay + jit)] else []) ++
            [Event.callE, Event.raiseE]) ∧
      (p.log = false →
        afterWrapper p jit ok =
          (if 0 < p.delay + jit then [Event.sleepE (p.delay + jit)] else []) ++
            [Event.callE])) := by
  constructor
  · intro recs jit ok fuel lim i hg hp hs hok
    constructor
    · intro hlog
      exact loopIter_raise recs jit ok fuel lim i hg hp hs hok hlog
    · intro hlog
      exact loopIter_exec recs jit ok fuel lim i hg hp hs (by simp [hok, hlog])
  · intro p jit ok hok
    constructor
    · intro hlog
      simp [afterWrapper, hok, hlog]
    · intro hlog
      simp [afterWrapper, hok, hlog]

theorem c3_witness :
    loopIter (fun _ => cPropsLog) (fun _ => 0) (fun _ => false) (0 + 1) Option.none 1 =
      some [Event.callE, Event.raiseE] ∧
    afterWrapper ⟨5, 0, false⟩ 0 false =
      (if (0 : ℚ) < 5 + 0 then [Event.sleepE ((5 : ℚ) + 0)] else []) ++ [Event.callE] :=
  ⟨((exception_policy.1 (fun _ => cPropsLog) (fun _ => 0) (fun _ => false) 0 Option.none 1
      rfl (by decide) (by decide) rfl).1 rfl),
   ((exception_policy.2 ⟨5, 0, false⟩ 0 false rfl).2 rfl)⟩
